import Mathlib

/-!
Verification of the shortest-transformation-path search (word ladder) of
src/wordLadder.py.  Tokens are modelled as lists of characters, the caller's
lexicon as a list of tokens queried only through membership, and the while
loop of the source as a fuel-indexed recursion over an explicit FIFO queue of
(token, path) states.  Fuel exhaustion is represented by an Option result and
is ruled out separately by a termination bound, so the artificial fuel never
changes the observable result.
-/

abbrev Token := List Char

/-- The alphabet iterated by the inner candidate loop of the source: the
string of the 26 lowercase letters. -/
def alphabet : List Char := "abcdefghijklmnopqrstuvwxyz".toList

/-- All one-character variations the source generates for a token: for each
position, each alphabet character other than the current one, substituted at
that position (position-major, alphabet order), mirroring
current_word[:i] + c + current_word[i+1:]. -/
def candidates (w : Token) : List Token :=
  (List.range w.length).flatMap fun i =>
    (alphabet.filter fun c => decide (c ≠ w.getD i 'a')).map fun c => w.set i c

/-- Python set.add on a set modelled as a duplicate-free-by-use list: appends
the element when it is not yet present. -/
def set_add (xs : List Token) (x : Token) : List Token :=
  if x ∈ xs then xs else xs ++ [x]

/-- One pass of the inner double loop of the source over the list of remaining
candidate words: returns the finished path as soon as a candidate equals the
target, otherwise the queue and visited set extended by the admitted
candidates. -/
def processCands (e : Token) (dict : List Token) (path : List Token) :
    List Token → List (Token × List Token) → List Token →
      Sum (List Token) (List (Token × List Token) × List Token)
  | [], q, v => .inr (q, v)
  | w :: ws, q, v =>
    if w = e then .inl (path ++ [w])
    else if w ∈ dict ∧ w ∉ v then
      processCands e dict path ws (q ++ [(w, path ++ [w])]) (v ++ [w])
    else processCands e dict path ws q v

/-- The while loop of the source: fuel-indexed BFS over the FIFO queue,
threading the number of dequeued states (frontier expansions). -/
def bfsLoop (e : Token) (dict : List Token) :
    Nat → List (Token × List Token) → List Token → Nat →
      Option (List Token) × Nat
  | 0, _, _, k => (none, k)
  | _ + 1, [], _, k => (some [], k)
  | n + 1, (cur, path) :: qs, v, k =>
    match processCands e dict path (candidates cur) qs v with
    | .inl res => (some res, k + 1)
    | .inr (q2, v2) => bfsLoop e dict n q2 v2 (k + 1)

/-- Fuel that provably outlasts the loop (established by bfsLoop_ne_none). -/
def fuelFor (L : List Token) : Nat := 2 * L.length + 4

/-- The word_ladder function of the source, instrumented with the number of
frontier expansions (dequeues) performed. -/
def word_ladder_run (s e : Token) (L : List Token) : List Token × Nat :=
  if s = e then ([s], 0)
  else if e ∉ L then ([], 0)
  else
    let d := set_add L s
    let out := bfsLoop e d (fuelFor L) [(s, [s])] [s] 0
    (out.1.getD [], out.2)

/-- The word_ladder function of the source. -/
def word_ladder (s e : Token) (L : List Token) : List Token :=
  (word_ladder_run s e L).1

/-- Hamming distance counted over the zipped characters, exactly as the
source helper is_one_letter_different computes its diff_count. -/
def hamming (a b : Token) : Nat :=
  (a.zip b).countP fun p => decide (p.1 ≠ p.2)

/-- The helper of the source checking that two words differ in exactly one
letter. -/
def is_one_letter_different (w1 w2 : Token) : Bool :=
  if w1.length ≠ w2.length then false else hamming w1 w2 == 1

/-- A store of set objects addressed by allocation order, making the aliasing
behaviour of the source observable: set(dictionary) allocates a fresh object
and .add mutates only that fresh object. -/
abbrev Store := List (List Token)

def store_read (st : Store) (r : Nat) : List Token := st.getD r []

def store_alloc (st : Store) (xs : List Token) : Store × Nat :=
  (st ++ [xs], st.length)

def store_write (st : Store) (r : Nat) (xs : List Token) : Store := st.set r xs

/-- The word_ladder function acting on a store of set objects: the caller's
lexicon is passed by reference, dictionary = set(dictionary) allocates a
copy, and only the copy receives the start token. -/
def word_ladder_st (st : Store) (dictRef : Nat) (s e : Token) :
    List Token × Store :=
  if s = e then ([s], st)
  else if e ∉ store_read st dictRef then ([], st)
  else
    let p := store_alloc st (store_read st dictRef)
    let st2 := store_write p.1 p.2 (set_add (store_read p.1 p.2) s)
    let out := bfsLoop e (store_read st2 p.2) (fuelFor (store_read st dictRef))
      [(s, [s])] [s] 0
    (out.1.getD [], st2)

/-- A Decidable instance for List.Chain that evaluates by structural
recursion, so that concrete goals reduce inside the kernel. -/
def decChain {α : Type} {R : α → α → Prop} [DecidableRel R] (a : α) :
    (l : List α) → Decidable (List.Chain R a l)
  | [] => isTrue List.Chain.nil
  | b :: l =>
    match inferInstanceAs (Decidable (R a b)), decChain b l with
    | isTrue h1, isTrue h2 => isTrue (List.Chain.cons h1 h2)
    | isFalse h1, _ => isFalse fun hc => by cases hc; exact h1 (by assumption)
    | _, isFalse h2 => isFalse fun hc => by cases hc; exact h2 (by assumption)

instance (priority := 2000) {α : Type} {R : α → α → Prop} [DecidableRel R]
    (a : α) (l : List α) : Decidable (List.Chain R a l) := decChain a l

instance (priority := 2000) {α : Type} {R : α → α → Prop} [DecidableRel R] :
    (l : List α) → Decidable (List.Chain' R l)
  | [] => isTrue trivial
  | a :: l => decChain a l

/-- One step of the source's neighbor generation: b is among the candidates
generated from a. -/
def CodeEdge (a b : Token) : Prop := b ∈ candidates a

instance : DecidableRel CodeEdge := fun a b =>
  inferInstanceAs (Decidable (b ∈ candidates a))

/-- A transformation sequence in the sense of the specification: nonempty,
leading from start to target, every element after the first in the lexicon,
and consecutive elements of equal length at Hamming distance one. -/
def IsTransformationSeq (s e : Token) (L : List Token) (p : List Token) : Prop :=
  p ≠ [] ∧ p.head? = some s ∧ p.getLast? = some e ∧
    (∀ x ∈ p.tail, x ∈ L) ∧
    List.Chain' (fun a b => a.length = b.length ∧ hamming a b = 1) p

/-- A transformation sequence whose steps are the substitutions the source
can actually generate (lowercase-alphabet substitutions). -/
def IsCodeTransformationSeq (s e : Token) (L : List Token) (p : List Token) : Prop :=
  p ≠ [] ∧ p.head? = some s ∧ p.getLast? = some e ∧
    (∀ x ∈ p.tail, x ∈ L) ∧ List.Chain' CodeEdge p

instance (s e : Token) (L p : List Token) :
    Decidable (IsTransformationSeq s e L p) :=
  inferInstanceAs (Decidable
    (p ≠ [] ∧ p.head? = some s ∧ p.getLast? = some e ∧
      (∀ x ∈ p.tail, x ∈ L) ∧
      List.Chain' (fun a b : Token => a.length = b.length ∧ hamming a b = 1) p))

instance (s e : Token) (L p : List Token) :
    Decidable (IsCodeTransformationSeq s e L p) :=
  inferInstanceAs (Decidable
    (p ≠ [] ∧ p.head? = some s ∧ p.getLast? = some e ∧
      (∀ x ∈ p.tail, x ∈ L) ∧ List.Chain' CodeEdge p))

/-- The full invariant of the BFS loop, with the ghost data pi recording the
already-expanded (dequeued) tokens in dequeue order together with the length
of the path each was enqueued with.  The queue tokens are exactly the last
entries of the visited list, in discovery order. -/
structure LoopInv (s e : Token) (L d : List Token)
    (pi : List (Token × Nat)) (q : List (Token × List Token))
    (v : List Token) : Prop where
  fifo : v = pi.map Prod.fst ++ q.map Prod.fst
  nodup : v.Nodup
  startMem : s ∈ v
  endNotMem : e ∉ v
  vSub : ∀ x ∈ v, x ∈ d
  lensSorted : List.Pairwise (· ≤ ·)
    (pi.map Prod.snd ++ q.map fun en => en.2.length)
  window : ∀ cur path q0, q = (cur, path) :: q0 →
    ∀ n ∈ pi.map Prod.snd ++ q.map (fun en => en.2.length), n ≤ path.length + 1
  entryPath : ∀ en ∈ q, en.2 ≠ [] ∧ en.2.head? = some s ∧
    en.2.getLast? = some en.1 ∧ List.Chain' CodeEdge en.2 ∧
    (∀ x ∈ en.2.tail, x ∈ L) ∧ en.2.Nodup ∧ (∀ x ∈ en.2, x ∈ v)
  startLenQ : ∀ en ∈ q, en.1 = s → en.2.length = 1
  startLenP : ∀ pr ∈ pi, pr.1 = s → pr.2 = 1
  complete : ∀ pr ∈ pi, e ∉ candidates pr.1 ∧
    ∀ c ∈ candidates pr.1, c ∈ d →
      (∃ pr2 ∈ pi, pr2.1 = c ∧ pr2.2 ≤ pr.2 + 1) ∨
      (∃ en ∈ q, en.1 = c ∧ en.2.length ≤ pr.2 + 1)

/-- The loop invariant with the ghost expansion record hidden. -/
def InvState (s e : Token) (L d : List Token)
    (q : List (Token × List Token)) (v : List Token) : Prop :=
  ∃ pi, LoopInv s e L d pi q v

/-- One dequeue-and-expand step of the BFS engine, as a relation on
(queue, visited) states: defined exactly when the dequeued state's candidate
scan completes without meeting the target. -/
def BfsStep (e : Token) (dict : List Token) :
    List (Token × List Token) × List Token →
      List (Token × List Token) × List Token → Prop :=
  fun st st2 => ∃ cur path q0, st.1 = (cur, path) :: q0 ∧
    processCands e dict path (candidates cur) q0 st.2 = .inr st2

section BasicLemmas

lemma mem_set_add {L : List Token} {s x : Token} :
    x ∈ set_add L s ↔ x ∈ L ∨ x = s := by
  by_cases h : s ∈ L <;> simp only [set_add, if_pos, if_neg, h, ite_true,
    ite_false, List.mem_append, List.mem_singleton]
  constructor
  · exact Or.inl
  · rintro (hx | rfl)
    · exact hx
    · exact h

lemma mem_candidates {w u : Token} :
    u ∈ candidates w ↔
      ∃ i, i < w.length ∧ ∃ c, c ∈ alphabet ∧ c ≠ w.getD i 'a' ∧
        u = w.set i c := by
  simp only [candidates, List.mem_flatMap, List.mem_range, List.mem_map,
    List.mem_filter, decide_eq_true_eq]
  constructor
  · rintro ⟨i, hi, c, ⟨hca, hcne⟩, rfl⟩; exact ⟨i, hi, c, hca, hcne, rfl⟩
  · rintro ⟨i, hi, c, hca, hcne, rfl⟩; exact ⟨i, hi, c, ⟨hca, hcne⟩, rfl⟩

lemma length_of_mem_candidates {w u : Token} (h : u ∈ candidates w) :
    u.length = w.length := by
  rcases mem_candidates.1 h with ⟨i, hi, c, -, -, rfl⟩
  exact List.length_set w i c

lemma hamming_cons_eq (x : Char) (xs ys : List Char) :
    hamming (x :: xs) (x :: ys) = hamming xs ys := by
  simp [hamming, List.countP_cons]

lemma hamming_cons_ne {x y : Char} (h : x ≠ y) (xs ys : List Char) :
    hamming (x :: xs) (y :: ys) = hamming xs ys + 1 := by
  simp [hamming, List.countP_cons, h]

lemma hamming_self (a : Token) : hamming a a = 0 := by
  induction a with
  | nil => rfl
  | cons x xs ih => rw [hamming_cons_eq]; exact ih

lemma hamming_set {w : Token} : ∀ {i : Nat} {c : Char}, i < w.length →
    c ≠ w.getD i 'a' → hamming w (w.set i c) = 1 := by
  induction w with
  | nil => intro i c hi _; simp at hi
  | cons x xs ih =>
    intro i c hi hc
    cases i with
    | zero =>
      have hxc : x ≠ c := fun hh => hc (by simp [hh.symm])
      rw [List.set_cons_zero, hamming_cons_ne hxc, hamming_self]
    | succ n =>
      have hn : n < xs.length := by simpa using hi
      have hcn : c ≠ xs.getD n 'a' := by simpa using hc
      rw [List.set_cons_succ, hamming_cons_eq]
      exact ih hn hcn

lemma hamming_zero : ∀ {a b : Token}, a.length = b.length →
    hamming a b = 0 → a = b
  | [], [], _, _ => rfl
  | [], _ :: _, hlen, _ => by simp at hlen
  | _ :: _, [], hlen, _ => by simp at hlen
  | x :: xs, y :: ys, hlen, h => by
    have hlen2 : xs.length = ys.length := by simpa using hlen
    by_cases hxy : x = y
    · subst hxy
      rw [hamming_cons_eq] at h
      rw [hamming_zero hlen2 h]
    · rw [hamming_cons_ne hxy] at h
      exact absurd h (by omega)

lemma hamming_one : ∀ {a b : Token}, a.length = b.length → hamming a b = 1 →
    ∃ i, i < a.length ∧ b.getD i ' ' ≠ a.getD i ' ' ∧
      b = a.set i (b.getD i ' ')
  | [], b, _, h => by simp [hamming] at h
  | _ :: _, [], hlen, _ => by simp at hlen
  | x :: xs, y :: ys, hlen, h => by
    have hlen2 : xs.length = ys.length := by simpa using hlen
    by_cases hxy : x = y
    · subst hxy
      rw [hamming_cons_eq] at h
      rcases hamming_one hlen2 h with ⟨i, hi, hne, hset⟩
      refine ⟨i + 1, by simpa using hi, by simpa using hne, ?_⟩
      simp only [List.getD_cons_succ, List.set_cons_succ]
      rw [← hset]
    · have h2 : hamming xs ys = 0 := by
        rw [hamming_cons_ne hxy] at h; omega
      have := hamming_zero hlen2 h2
      subst this
      exact ⟨0, by simp, by simpa using fun hh => hxy hh.symm, by simp⟩

lemma codeEdge_hamming {a b : Token} (h : CodeEdge a b) :
    a.length = b.length ∧ hamming a b = 1 := by
  rcases mem_candidates.1 h with ⟨i, hi, c, -, hne, rfl⟩
  exact ⟨(List.length_set a i c).symm, hamming_set hi hne⟩

end BasicLemmas

section ProcessCandsLemmas

lemma processCands_of_mem {e : Token} {dict path : List Token} :
    ∀ {cs : List Token} {q v}, e ∈ cs →
      processCands e dict path cs q v = .inl (path ++ [e]) := by
  intro cs
  induction cs with
  | nil => intro q v h; simp at h
  | cons w ws ih =>
    intro q v h
    by_cases hwe : w = e
    · subst hwe; simp [processCands]
    · have hews : e ∈ ws := by
        rcases List.mem_cons.1 h with h1 | h1
        · exact absurd h1.symm hwe
        · exact h1
      by_cases hwd : w ∈ dict ∧ w ∉ v
      · rw [processCands, if_neg hwe, if_pos hwd]; exact ih hews
      · rw [processCands, if_neg hwe, if_neg hwd]; exact ih hews

lemma processCands_inl {e : Token} {dict path : List Token} :
    ∀ {cs : List Token} {q v r}, processCands e dict path cs q v = .inl r →
      r = path ++ [e] ∧ e ∈ cs := by
  intro cs
  induction cs with
  | nil => intro q v r h; simp [processCands] at h
  | cons w ws ih =>
    intro q v r h
    by_cases hwe : w = e
    · subst hwe
      rw [processCands, if_pos rfl] at h
      cases h
      exact ⟨rfl, List.mem_cons_self _ _⟩
    · by_cases hwd : w ∈ dict ∧ w ∉ v
      · rw [processCands, if_neg hwe, if_pos hwd] at h
        rcases ih h with ⟨hr, hm⟩
        exact ⟨hr, List.mem_cons_of_mem _ hm⟩
      · rw [processCands, if_neg hwe, if_neg hwd] at h
        rcases ih h with ⟨hr, hm⟩
        exact ⟨hr, List.mem_cons_of_mem _ hm⟩

lemma processCands_inr {e : Token} {dict path : List Token} :
    ∀ {cs : List Token} {q v q2 v2},
      processCands e dict path cs q v = .inr (q2, v2) →
      e ∉ cs ∧ ∃ ts, v2 = v ++ ts ∧
        q2 = q ++ ts.map (fun w => (w, path ++ [w])) ∧
        (∀ w ∈ ts, w ∈ cs ∧ w ∈ dict ∧ w ∉ v) ∧
        (v.Nodup → v2.Nodup) ∧
        (∀ c ∈ cs, c ∈ dict → c ∈ v2) := by
  intro cs
  induction cs with
  | nil =>
    intro q v q2 v2 h
    rw [processCands] at h
    cases h
    exact ⟨by simp, [], by simp, by simp, by simp, fun h2 => h2, by simp⟩
  | cons w ws ih =>
    intro q v q2 v2 h
    by_cases hwe : w = e
    · subst hwe; rw [processCands, if_pos rfl] at h; cases h
    · by_cases hwd : w ∈ dict ∧ w ∉ v
      · rw [processCands, if_neg hwe, if_pos hwd] at h
        rcases ih h with ⟨hens, ts, hv2, hq2, hts, hnd, hcv⟩
        refine ⟨?_, w :: ts, ?_, ?_, ?_, ?_, ?_⟩
        · simp only [List.mem_cons, not_or]
          exact ⟨fun hh => hwe hh.symm, hens⟩
        · simpa using hv2
        · simpa using hq2
        · intro w2 hw2
          rcases List.mem_cons.1 hw2 with rfl | hw2
          · exact ⟨List.mem_cons_self _ _, hwd.1, hwd.2⟩
          · rcases hts w2 hw2 with ⟨h1, h2, h3⟩
            exact ⟨List.mem_cons_of_mem _ h1, h2,
              fun hh => h3 (List.mem_append_left _ hh)⟩
        · intro hvn
          apply hnd
          simp [List.nodup_append, hvn, hwd.2]
        · intro c hc hcd
          rcases List.mem_cons.1 hc with rfl | hc
          · rw [hv2]
            exact List.mem_append_left _ (List.mem_append_right _ (by simp))
          · exact hcv c hc hcd
      · rw [processCands, if_neg hwe, if_neg hwd] at h
        rcases ih h with ⟨hens, ts, hv2, hq2, hts, hnd, hcv⟩
        refine ⟨?_, ts, hv2, hq2, ?_, hnd, ?_⟩
        · simp only [List.mem_cons, not_or]
          exact ⟨fun hh => hwe hh.symm, hens⟩
        · intro w2 hw2
          rcases hts w2 hw2 with ⟨h1, h2, h3⟩
          exact ⟨List.mem_cons_of_mem _ h1, h2, h3⟩
        · intro c hc hcd
          rcases List.mem_cons.1 hc with rfl | hc
          · have hcv2 : c ∈ v := by
              rcases not_and_or.1 hwd with hh | hh
              · exact absurd hcd hh
              · exact not_not.1 hh
            rw [hv2]; exact List.mem_append_left _ hcv2
          · exact hcv c hc hcd

end ProcessCandsLemmas

section LoopUnfolding

lemma bfsLoop_cons (e : Token) (d : List Token) (n : Nat) (cur : Token)
    (path : List Token) (q0 : List (Token × List Token)) (v : List Token)
    (k : Nat) :
    bfsLoop e d (n + 1) ((cur, path) :: q0) v k =
      match processCands e d path (candidates cur) q0 v with
      | .inl res => (some res, k + 1)
      | .inr (q2, v2) => bfsLoop e d n q2 v2 (k + 1) := rfl

lemma set_add_length (L : List Token) (s : Token) :
    (set_add L s).length ≤ L.length + 1 := by
  unfold set_add; split <;> simp

lemma word_ladder_refl (t : Token) (L : List Token) :
    word_ladder t t L = [t] := by
  rw [word_ladder, word_ladder_run, if_pos rfl]

lemma word_ladder_run_fast {s e : Token} {L : List Token} (hne : s ≠ e)
    (he : e ∉ L) : word_ladder_run s e L = ([], 0) := by
  rw [word_ladder_run, if_neg hne, if_pos he]

lemma word_ladder_main {s e : Token} {L : List Token} (hne : s ≠ e)
    (heL : e ∈ L) :
    word_ladder s e L =
      (bfsLoop e (set_add L s) (fuelFor L) [(s, [s])] [s] 0).1.getD [] := by
  rw [word_ladder, word_ladder_run, if_neg hne, if_neg (not_not_intro heL)]

end LoopUnfolding

section Termination

lemma bfsLoop_isSome {e : Token} {d : List Token} :
    ∀ (n : Nat) (q : List (Token × List Token)) (v : List Token) (k : Nat),
      v.Nodup → (∀ x ∈ v, x ∈ d) → (∀ en ∈ q, en.1 ∈ v) →
      q.length + 2 * (d.length - v.length) < n →
      (bfsLoop e d n q v k).1.isSome := by
  intro n
  induction n with
  | zero => intro q v k _ _ _ h; omega
  | succ m ih =>
    intro q v k hnd hvd hqv hlt
    match q with
    | [] => simp [bfsLoop]
    | (cur, path) :: q0 =>
      rw [bfsLoop_cons]
      rcases hpc : processCands e d path (candidates cur) q0 v with r | ⟨q2, v2⟩
      · simp
      · simp only
        rcases processCands_inr hpc with ⟨-, ts, hv2, hq2, hts, hnd2, -⟩
        have hnd2 := hnd2 hnd
        have hvd2 : ∀ x ∈ v2, x ∈ d := by
          intro x hx
          rw [hv2] at hx
          rcases List.mem_append.1 hx with hx | hx
          · exact hvd x hx
          · exact (hts x hx).2.1
        have hqv2 : ∀ en ∈ q2, en.1 ∈ v2 := by
          intro en hen
          rw [hq2] at hen
          rcases List.mem_append.1 hen with hen | hen
          · rw [hv2]
            exact List.mem_append_left _ (hqv en (List.mem_cons_of_mem _ hen))
          · rcases List.mem_map.1 hen with ⟨w, hw, rfl⟩
            rw [hv2]
            exact List.mem_append_right _ hw
        apply ih _ _ _ hnd2 hvd2 hqv2
        have hlen2 : v2.length ≤ d.length :=
          ((hnd2.subperm hvd2).length_le)
        have hq2len : q2.length = q0.length + ts.length := by
          rw [hq2]; simp
        have hv2len : v2.length = v.length + ts.length := by
          rw [hv2]; simp
        simp only [List.length_cons] at hlt
        omega

lemma bfsLoop_no_target {e : Token} {d : List Token} :
    ∀ (n : Nat) (q : List (Token × List Token)) (v : List Token) (k : Nat),
      v.Nodup → (∀ x ∈ v, x ∈ d) → (∀ en ∈ q, en.1 ∈ v) →
      (∀ en ∈ q, en.1.length ≠ e.length) →
      q.length + 2 * (d.length - v.length) < n →
      (bfsLoop e d n q v k).1 = some [] := by
  intro n
  induction n with
  | zero => intro q v k _ _ _ _ h; omega
  | succ m ih =>
    intro q v k hnd hvd hqv hql hlt
    match q with
    | [] => simp [bfsLoop]
    | (cur, path) :: q0 =>
      rw [bfsLoop_cons]
      rcases hpc : processCands e d path (candidates cur) q0 v with r | ⟨q2, v2⟩
      · exfalso
        have hcur : cur.length ≠ e.length := hql _ (List.mem_cons_self _ _)
        have hec : e ∈ candidates cur := (processCands_inl hpc).2
        exact hcur (length_of_mem_candidates hec).symm
      · simp only
        rcases processCands_inr hpc with ⟨-, ts, hv2, hq2, hts, hnd2, -⟩
        have hnd2 := hnd2 hnd
        have hvd2 : ∀ x ∈ v2, x ∈ d := by
          intro x hx
          rw [hv2] at hx
          rcases List.mem_append.1 hx with hx | hx
          · exact hvd x hx
          · exact (hts x hx).2.1
        have hqv2 : ∀ en ∈ q2, en.1 ∈ v2 := by
          intro en hen
          rw [hq2] at hen
          rcases List.mem_append.1 hen with hen | hen
          · rw [hv2]
            exact List.mem_append_left _ (hqv en (List.mem_cons_of_mem _ hen))
          · rcases List.mem_map.1 hen with ⟨w, hw, rfl⟩
            rw [hv2]
            exact List.mem_append_right _ hw
        have hql2 : ∀ en ∈ q2, en.1.length ≠ e.length := by
          intro en hen
          rw [hq2] at hen
          rcases List.mem_append.1 hen with hen | hen
          · exact hql en (List.mem_cons_of_mem _ hen)
          · rcases List.mem_map.1 hen with ⟨w, hw, rfl⟩
            have : w.length = cur.length :=
              length_of_mem_candidates (hts w hw).1
            have hcur : cur.length ≠ e.length :=
              hql _ (List.mem_cons_self _ _)
            simpa [this] using hcur
        apply ih _ _ _ hnd2 hvd2 hqv2 hql2
        have hlen2 : v2.length ≤ d.length :=
          ((hnd2.subperm hvd2).length_le)
        have hq2len : q2.length = q0.length + ts.length := by
          rw [hq2]; simp
        have hv2len : v2.length = v.length + ts.length := by
          rw [hv2]; simp
        simp only [List.length_cons] at hlt
        omega

lemma init_fuel (L : List Token) (s : Token) :
    1 + 2 * ((set_add L s).length - 1) < fuelFor L := by
  have := set_add_length L s
  unfold fuelFor
  omega

end Termination

/-- C2.  Trivial success: for every token t and every lexicon L, including
lexicons not containing t, word_ladder t t L returns the single-element
sequence [t]. -/
theorem wl_trivial_success (t : Token) (L : List Token) :
    word_ladder t t L = [t] :=
  word_ladder_refl t L

/-- C3.  Unreachable-target fast path: for start not equal to end and end
absent from the lexicon, word_ladder returns the empty sequence and the run
performs zero frontier expansions (dequeues). -/
theorem wl_unreachable_fast_path (s e : Token) (L : List Token)
    (hne : s ≠ e) (he : e ∉ L) :
    word_ladder s e L = [] ∧ (word_ladder_run s e L).2 = 0 := by
  have h := word_ladder_run_fast hne he
  exact ⟨by rw [word_ladder, h], by rw [h]⟩

/-- Witness for wl_unreachable_fast_path at concrete input. -/
theorem wl_unreachable_fast_path_witness :
    word_ladder ['a'] ['b'] [['c']] = [] ∧
      (word_ladder_run ['a'] ['b'] [['c']]).2 = 0 :=
  wl_unreachable_fast_path ['a'] ['b'] [['c']] (by decide) (by decide)

/-- C8.  Length mismatch degenerates gracefully: when start and end have
different lengths, every generated candidate keeps the length of its origin,
so the target is never produced and the BFS (whose loop provably terminates:
its Option-valued core returns some value) returns the empty sequence. -/
theorem wl_length_mismatch (s e : Token) (L : List Token)
    (h : s.length ≠ e.length) : word_ladder s e L = [] := by
  have hne : s ≠ e := fun hh => h (by rw [hh])
  by_cases heL : e ∈ L
  · rw [word_ladder_main hne heL]
    have hsome : (bfsLoop e (set_add L s) (fuelFor L) [(s, [s])] [s] 0).1 =
        some [] := by
      apply bfsLoop_no_target
      · exact List.nodup_singleton s
      · intro x hx
        rcases List.mem_singleton.1 hx with rfl
        exact mem_set_add.2 (Or.inr rfl)
      · intro en hen
        rcases List.mem_singleton.1 hen with rfl
        exact List.mem_singleton.2 rfl
      · intro en hen
        rcases List.mem_singleton.1 hen with rfl
        exact h
      · simpa using init_fuel L s
    rw [hsome]
    rfl
  · have h2 := word_ladder_run_fast hne heL
    rw [word_ladder, h2]

/-- Witness for wl_length_mismatch at concrete input. -/
theorem wl_length_mismatch_witness :
    word_ladder ['a', 'b'] ['c'] [['c']] = [] :=
  wl_length_mismatch ['a', 'b'] ['c'] [['c']] (by decide)

section StoreLemmas

lemma set_append_singleton {α : Type} (st : List α) (a b : α) :
    (st ++ [a]).set st.length b = st ++ [b] := by
  induction st with
  | nil => rfl
  | cons x xs ih => simp [ih]

lemma store_read_append (st : Store) (x : List Token) {r : Nat}
    (h : r < st.length) : store_read (st ++ [x]) r = store_read st r := by
  unfold store_read
  exact List.getD_append st [x] [] r h

lemma store_read_last_new (st : Store) (x : List Token) :
    store_read (st ++ [x]) st.length = x := by
  unfold store_read
  rw [List.getD_append_right st [x] [] st.length (le_refl _)]
  simp

end StoreLemmas

/-- C5.  No caller mutation: the set object the caller passed by reference
is observably unchanged after the call; the start token is added only to the
freshly allocated copy, and the copy-based run computes exactly
word_ladder of the caller's set contents. -/
theorem wl_no_caller_mutation (st : Store) (r : Nat) (s e : Token)
    (h : r < st.length) :
    store_read (word_ladder_st st r s e).2 r = store_read st r ∧
      (word_ladder_st st r s e).1 = word_ladder s e (store_read st r) := by
  by_cases h1 : s = e
  · subst h1
    rw [word_ladder_st, if_pos rfl]
    exact ⟨rfl, (word_ladder_refl s _).symm⟩
  · by_cases h2 : e ∈ store_read st r
    · constructor
      · rw [word_ladder_st, if_neg h1, if_neg (not_not_intro h2)]
        dsimp only [store_alloc, store_write]
        rw [store_read_last_new, set_append_singleton, store_read_append st _ h]
      · rw [word_ladder_st, if_neg h1, if_neg (not_not_intro h2),
          word_ladder, word_ladder_run, if_neg h1, if_neg (not_not_intro h2)]
        dsimp only [store_alloc, store_write]
        rw [store_read_last_new, set_append_singleton, store_read_last_new]
    · rw [word_ladder_st, if_neg h1, if_pos h2,
        word_ladder, word_ladder_run, if_neg h1, if_pos h2]
      exact ⟨rfl, rfl⟩

/-- Witness for wl_no_caller_mutation at concrete input. -/
theorem wl_no_caller_mutation_witness :
    store_read (word_ladder_st [[['b']]] 0 ['a'] ['b']).2 0 =
        store_read [[['b']]] 0 ∧
      (word_ladder_st [[['b']]] 0 ['a'] ['b']).1 =
        word_ladder ['a'] ['b'] (store_read [[['b']]] 0) :=
  wl_no_caller_mutation [[['b']]] 0 ['a'] ['b'] (by decide)

/-- C4 counterexample: the source iterates only the lowercase alphabet when
generating candidates, so for tokens over other alphabets that differ in
exactly one position (here a capital letter at the differing position) the
claimed two-element ladder is not returned even though the target is in the
lexicon; the call returns the empty sequence instead. -/
theorem wl_alphabet_agnostic_counterexample :
    (['a'] : Token).length = (['A'] : Token).length ∧
      hamming ['a'] ['A'] = 1 ∧ (['a'] : Token) ≠ ['A'] ∧
      (['A'] : Token) ∈ [(['A'] : Token)] ∧
      word_ladder ['a'] ['A'] [['A']] ≠ [['a'], ['A']] ∧
      word_ladder ['a'] ['A'] [['A']] = [] := by decide

/-- C4 amended.  Adjacency fast result, restricted to the alphabet the code
iterates: if start and end have equal length and Hamming distance one, the
character of end at the differing position is a lowercase letter, and end is
in the lexicon, then word_ladder returns [start, end]. -/
theorem wl_adjacent_step (s e : Token) (L : List Token)
    (hlen : s.length = e.length) (h1 : hamming s e = 1)
    (halpha : ∀ i, i < e.length → e.getD i ' ' ≠ s.getD i ' ' →
      e.getD i ' ' ∈ alphabet)
    (heL : e ∈ L) : word_ladder s e L = [s, e] := by
  rcases hamming_one hlen h1 with ⟨i, hi, hne, hset⟩
  have hie : i < e.length := hlen ▸ hi
  have hca : e.getD i ' ' ∈ alphabet := halpha i hie hne
  have h3 : s.getD i 'a' = s.getD i ' ' := by
    rw [List.getD_eq_getElem _ _ hi, List.getD_eq_getElem _ _ hi]
  have hecand : e ∈ candidates s :=
    mem_candidates.2 ⟨i, hi, e.getD i ' ', hca, (by rw [h3]; exact hne), hset⟩
  have hsne : s ≠ e := by
    intro hh
    rw [hh, hamming_self] at h1
    exact absurd h1 (by omega)
  rw [word_ladder_main hsne heL]
  have hfuel : fuelFor L = (2 * L.length + 3) + 1 := rfl
  rw [hfuel, bfsLoop_cons, processCands_of_mem hecand]
  rfl

/-- Witness for wl_adjacent_step at concrete input. -/
theorem wl_adjacent_step_witness :
    word_ladder ['c', 'a', 't'] ['b', 'a', 't'] [['b', 'a', 't']] =
      [['c', 'a', 't'], ['b', 'a', 't']] :=
  wl_adjacent_step ['c', 'a', 't'] ['b', 'a', 't'] [['b', 'a', 't']]
    (by decide) (by decide) (by decide) (by decide)

section InvariantLemmas

lemma pairwise_const_le {α : Type} (c : Nat) (ts : List α) :
    (ts.map fun _ => c).Pairwise (fun a b : Nat => a ≤ b) := by
  induction ts with
  | nil => exact List.Pairwise.nil
  | cons x xs ih =>
    refine List.Pairwise.cons ?_ ih
    intro b hb
    rcases List.mem_map.1 hb with ⟨y, -, rfl⟩
    exact le_refl c

lemma loopInv_init {s e : Token} {L d : List Token} (hne : s ≠ e)
    (hsd : s ∈ d) : LoopInv s e L d [] [(s, [s])] [s] := by
  refine
    { fifo := by simp
      nodup := List.nodup_singleton s
      startMem := List.mem_singleton.2 rfl
      endNotMem := fun hh => hne (List.mem_singleton.1 hh).symm
      vSub := ?_
      lensSorted := by simp
      window := ?_
      entryPath := ?_
      startLenQ := ?_
      startLenP := by simp
      complete := by simp }
  · intro x hx
    rcases List.mem_singleton.1 hx with rfl
    exact hsd
  · intro cur path q0 heq n hn
    cases heq
    simp only [List.map_nil, List.map_cons, List.nil_append,
      List.mem_singleton] at hn
    subst hn
    simp
  · intro en hen
    rcases List.mem_singleton.1 hen with rfl
    refine ⟨by simp, rfl, rfl, List.chain'_singleton s, by simp, by simp, ?_⟩
    intro x hx
    exact hx
  · intro en hen _
    rcases List.mem_singleton.1 hen with rfl
    rfl

lemma loopInv_step {s e : Token} {L d : List Token}
    {pi : List (Token × Nat)} {cur : Token} {path : List Token}
    {q0 q2 : List (Token × List Token)} {v v2 : List Token}
    (hd : ∀ x, x ∈ d ↔ x ∈ L ∨ x = s)
    (inv : LoopInv s e L d pi ((cur, path) :: q0) v)
    (hpc : processCands e d path (candidates cur) q0 v = .inr (q2, v2)) :
    LoopInv s e L d (pi ++ [(cur, path.length)]) q2 v2 := by
  obtain ⟨hens, ts, hv2, hq2, hts, hnd2, hcv⟩ := processCands_inr hpc
  have hpe := inv.entryPath (cur, path) (List.mem_cons_self _ _)
  obtain ⟨hpnn, hphd, hplast, hpchain, hptail, hpnodup, hpsub⟩ := hpe
  dsimp only at hpnn hphd hplast hpchain hptail hpnodup hpsub
  have hwin : ∀ n ∈ pi.map Prod.snd ++
      ((cur, path) :: q0).map (fun en => en.2.length), n ≤ path.length + 1 :=
    inv.window cur path q0 rfl
  have htsv : ∀ w ∈ ts, w ∉ v := fun w hw => (hts w hw).2.2
  have htsd : ∀ w ∈ ts, w ∈ d := fun w hw => (hts w hw).2.1
  have htsc : ∀ w ∈ ts, w ∈ candidates cur := fun w hw => (hts w hw).1
  have htss : ∀ w ∈ ts, w ≠ s := by
    intro w hw hws
    exact htsv w hw (hws ▸ inv.startMem)
  have hmapfst : ∀ ts2 : List Token,
      (ts2.map fun w => (w, path ++ [w])).map Prod.fst = ts2 := by
    intro ts2
    induction ts2 with
    | nil => rfl
    | cons x xs ih => simp only [List.map_cons, ih]
  have hmaplen : ∀ ts2 : List Token,
      (ts2.map fun w => (w, path ++ [w])).map (fun en => en.2.length) =
        ts2.map fun _ => path.length + 1 := by
    intro ts2
    induction ts2 with
    | nil => rfl
    | cons x xs ih => simp only [List.map_cons, ih, List.length_append,
        List.length_singleton]
  have hq2fst : q2.map Prod.fst = q0.map Prod.fst ++ ts := by
    rw [hq2, List.map_append, hmapfst]
  have hq2len : q2.map (fun en => en.2.length) =
      q0.map (fun en => en.2.length) ++ ts.map (fun _ => path.length + 1) := by
    rw [hq2, List.map_append, hmaplen]
  refine
    { fifo := ?_
      nodup := hnd2 inv.nodup
      startMem := by rw [hv2]; exact List.mem_append_left _ inv.startMem
      endNotMem := ?_
      vSub := ?_
      lensSorted := ?_
      window := ?_
      entryPath := ?_
      startLenQ := ?_
      startLenP := ?_
      complete := ?_ }
  · -- fifo
    rw [hv2, inv.fifo, hq2fst]
    simp [List.map_append]
  · -- endNotMem
    rw [hv2]
    intro hh
    rcases List.mem_append.1 hh with hh | hh
    · exact inv.endNotMem hh
    · exact hens (htsc e hh)
  · -- vSub
    intro x hx
    rw [hv2] at hx
    rcases List.mem_append.1 hx with hx | hx
    · exact inv.vSub x hx
    · exact htsd x hx
  · -- lensSorted
    have hlens : (pi ++ [(cur, path.length)]).map Prod.snd ++
        q2.map (fun en => en.2.length) =
        (pi.map Prod.snd ++
          ((cur, path) :: q0).map (fun en => en.2.length)) ++
          ts.map (fun _ => path.length + 1) := by
      rw [hq2len]
      simp [List.map_append]
    rw [hlens]
    refine List.pairwise_append.2 ⟨inv.lensSorted, pairwise_const_le _ _, ?_⟩
    intro x hx y hy
    rcases List.mem_map.1 hy with ⟨w, -, rfl⟩
    exact hwin x hx
  · -- window
    intro cur2 path2 q02 heq n hn
    have hlens : (pi ++ [(cur, path.length)]).map Prod.snd ++
        q2.map (fun en => en.2.length) =
        (pi.map Prod.snd ++
          ((cur, path) :: q0).map (fun en => en.2.length)) ++
          ts.map (fun _ => path.length + 1) := by
      rw [hq2len]
      simp [List.map_append]
    rw [hlens] at hn
    have hplen2 : path.length ≤ path2.length := by
      have heq2 := hq2.symm.trans heq
      cases q0 with
      | nil =>
        simp only [List.nil_append] at heq2
        cases ts with
        | nil => exact absurd heq2.symm (List.cons_ne_nil _ _)
        | cons w ts2 =>
          simp only [List.map_cons, List.cons.injEq, Prod.mk.injEq] at heq2
          have : path2 = path ++ [w] := heq2.1.2.symm
          rw [this]
          simp
      | cons en1 q02x =>
        simp only [List.cons_append, List.cons.injEq] at heq2
        have hp : List.Pairwise (fun a b : Nat => a ≤ b)
            (((cur, path) :: en1 :: q02x).map fun en => en.2.length) :=
          (List.pairwise_append.1 inv.lensSorted).2.1
        simp only [List.map_cons] at hp
        have h6 := List.rel_of_pairwise_cons hp
          (List.mem_cons_self en1.2.length _)
        rw [heq2.1] at h6
        exact h6
    rcases List.mem_append.1 hn with hn | hn
    · exact le_trans (hwin n hn) (by omega)
    · rcases List.mem_map.1 hn with ⟨w, -, rfl⟩
      omega
  · -- entryPath
    intro en hen
    rw [hq2] at hen
    rcases List.mem_append.1 hen with hen | hen
    · obtain ⟨h1, h2, h3, h4, h5, h6, h7⟩ :=
        inv.entryPath en (List.mem_cons_of_mem _ hen)
      refine ⟨h1, h2, h3, h4, h5, h6, ?_⟩
      intro x hx
      rw [hv2]
      exact List.mem_append_left _ (h7 x hx)
    · rcases List.mem_map.1 hen with ⟨w, hw, rfl⟩
      refine ⟨by simp, ?_, List.getLast?_concat path, ?_, ?_, ?_, ?_⟩
      · rw [List.head?_append_of_ne_nil path hpnn]
        exact hphd
      · refine List.Chain'.append hpchain (List.chain'_singleton w) ?_
        intro x hx y hy
        rw [hplast] at hx
        rcases Option.mem_some_iff.1 hx with rfl
        simp only [List.head?_cons, Option.mem_some_iff] at hy
        subst hy
        exact htsc w hw
      · rw [List.tail_append_singleton_of_ne_nil hpnn]
        intro x hx
        rcases List.mem_append.1 hx with hx | hx
        · exact hptail x hx
        · rcases List.mem_singleton.1 hx with rfl
          rcases (hd x).1 (htsd x hw) with hh | hh
          · exact hh
          · exact absurd hh (htss x hw)
      · rw [List.nodup_append]
        refine ⟨hpnodup, List.nodup_singleton w, ?_⟩
        intro x hx hx2
        rcases List.mem_singleton.1 hx2 with rfl
        exact htsv x hw (hpsub x hx)
      · intro x hx
        rw [hv2]
        rcases List.mem_append.1 hx with hx | hx
        · exact List.mem_append_left _ (hpsub x hx)
        · rcases List.mem_singleton.1 hx with rfl
          exact List.mem_append_right _ hw
  · -- startLenQ
    intro en hen hens2
    rw [hq2] at hen
    rcases List.mem_append.1 hen with hen | hen
    · exact inv.startLenQ en (List.mem_cons_of_mem _ hen) hens2
    · rcases List.mem_map.1 hen with ⟨w, hw, rfl⟩
      exact absurd hens2 (htss w hw)
  · -- startLenP
    intro pr hpr hprs
    rcases List.mem_append.1 hpr with hpr | hpr
    · exact inv.startLenP pr hpr hprs
    · rcases List.mem_singleton.1 hpr with rfl
      exact inv.startLenQ (cur, path) (List.mem_cons_self _ _) hprs
  · -- complete
    intro pr hpr
    rcases List.mem_append.1 hpr with hpr | hpr
    · obtain ⟨hne2, hcomp⟩ := inv.complete pr hpr
      refine ⟨hne2, ?_⟩
      intro c hc hcd
      rcases hcomp c hc hcd with ⟨pr2, hpr2, hpr2c, hpr2b⟩ | ⟨en, hen, henc, henb⟩
      · exact Or.inl ⟨pr2, List.mem_append_left _ hpr2, hpr2c, hpr2b⟩
      · rcases List.mem_cons.1 hen with rfl | hen
        · exact Or.inl ⟨(cur, path.length),
            List.mem_append_right _ (List.mem_singleton.2 rfl), henc, henb⟩
        · exact Or.inr ⟨en, by rw [hq2]; exact List.mem_append_left _ hen,
            henc, henb⟩
    · rcases List.mem_singleton.1 hpr with rfl
      refine ⟨hens, ?_⟩
      intro c hc hcd
      have hcv2 : c ∈ v2 := hcv c hc hcd
      rw [hv2] at hcv2
      rcases List.mem_append.1 hcv2 with hcv2 | hcv2
      · rw [inv.fifo] at hcv2
        rcases List.mem_append.1 hcv2 with hcv2 | hcv2
        · rcases List.mem_map.1 hcv2 with ⟨pr2, hpr2, rfl⟩
          refine Or.inl ⟨pr2, List.mem_append_left _ hpr2, rfl, ?_⟩
          exact hwin pr2.2 (List.mem_append_left _ (List.mem_map_of_mem _ hpr2))
        · simp only [List.map_cons] at hcv2
          rcases List.mem_cons.1 hcv2 with hceq | hcv2
          · exact Or.inl ⟨(cur, path.length),
              List.mem_append_right _ (List.mem_singleton.2 rfl), hceq.symm,
              by omega⟩
          · rcases List.mem_map.1 hcv2 with ⟨en, hen, rfl⟩
            refine Or.inr ⟨en, by rw [hq2]; exact List.mem_append_left _ hen,
              rfl, ?_⟩
            refine hwin en.2.length ?_
            refine List.mem_append_right _ ?_
            simp only [List.map_cons, List.mem_cons]
            exact Or.inr (List.mem_map_of_mem _ hen)
      · refine Or.inr ⟨(c, path ++ [c]), ?_, rfl, by simp⟩
        rw [hq2]
        exact List.mem_append_right _ (List.mem_map_of_mem _ hcv2)

end InvariantLemmas

section ResultSpec

lemma bfsLoop_result_spec {s e : Token} {L d : List Token}
    (hd : ∀ x, x ∈ d ↔ x ∈ L ∨ x = s) (heL : e ∈ L) :
    ∀ (n : Nat) (q : List (Token × List Token)) (v : List Token) (k : Nat)
      (pi : List (Token × Nat)), LoopInv s e L d pi q v →
      ∀ {res : List Token}, (bfsLoop e d n q v k).1 = some res → res ≠ [] →
      res.head? = some s ∧ res.getLast? = some e ∧
        List.Chain' CodeEdge res ∧ (∀ x ∈ res.tail, x ∈ L) ∧ res.Nodup := by
  intro n
  induction n with
  | zero => intro q v k pi inv res h hne; simp [bfsLoop] at h
  | succ m ih =>
    intro q v k pi inv res h hne
    match q with
    | [] =>
      simp only [bfsLoop, Option.some.injEq] at h
      exact absurd h.symm hne
    | (cur, path) :: q0 =>
      rw [bfsLoop_cons] at h
      rcases hpc : processCands e d path (candidates cur) q0 v with r | ⟨q2, v2⟩
      · rw [hpc] at h
        simp only [Option.some.injEq] at h
        obtain ⟨hr, hec⟩ := processCands_inl hpc
        obtain ⟨hpnn, hphd, hplast, hpchain, hptail, hpnodup, hpsub⟩ :=
          inv.entryPath (cur, path) (List.mem_cons_self _ _)
        dsimp only at hpnn hphd hplast hpchain hptail hpnodup hpsub
        have hres : res = path ++ [e] := by rw [← h, hr]
        subst hres
        refine ⟨?_, List.getLast?_concat path, ?_, ?_, ?_⟩
        · rw [List.head?_append_of_ne_nil path hpnn]
          exact hphd
        · refine List.Chain'.append hpchain (List.chain'_singleton e) ?_
          intro x hx y hy
          rw [hplast] at hx
          rcases Option.mem_some_iff.1 hx with rfl
          simp only [List.head?_cons, Option.mem_some_iff] at hy
          subst hy
          exact hec
        · rw [List.tail_append_singleton_of_ne_nil hpnn]
          intro x hx
          rcases List.mem_append.1 hx with hx | hx
          · exact hptail x hx
          · rcases List.mem_singleton.1 hx with rfl
            exact heL
        · rw [List.nodup_append]
          refine ⟨hpnodup, List.nodup_singleton e, ?_⟩
          intro x hx hx2
          rcases List.mem_singleton.1 hx2 with rfl
          exact inv.endNotMem (hpsub x hx)
      · rw [hpc] at h
        simp only at h
        exact ih q2 v2 (k + 1) _ (loopInv_step hd inv hpc) h hne

lemma word_ladder_spec {s e : Token} {L : List Token}
    (hne : word_ladder s e L ≠ []) :
    (word_ladder s e L).head? = some s ∧
      (word_ladder s e L).getLast? = some e ∧
      List.Chain' CodeEdge (word_ladder s e L) ∧
      (∀ x ∈ (word_ladder s e L).tail, x ∈ L) ∧
      (word_ladder s e L).Nodup := by
  by_cases h1 : s = e
  · subst h1
    rw [word_ladder_refl]
    exact ⟨rfl, rfl, List.chain'_singleton s, by simp, List.nodup_singleton s⟩
  · by_cases h2 : e ∈ L
    · rw [word_ladder_main h1 h2] at hne ⊢
      rcases hopt : (bfsLoop e (set_add L s) (fuelFor L) [(s, [s])] [s] 0).1
        with - | res
      · rw [hopt] at hne
        simp at hne
      · rw [hopt] at hne
        simp only [Option.getD_some] at hne ⊢
        exact bfsLoop_result_spec (fun x => mem_set_add) h2 (fuelFor L) _ _ 0 []
          (loopInv_init h1 (mem_set_add.2 (Or.inr rfl))) hopt hne
    · rw [word_ladder, word_ladder_run_fast h1 h2] at hne
      exact absurd rfl hne

end ResultSpec

/-- C6.  Edge validity of results: in every non-empty result, consecutive
elements have equal length and Hamming distance exactly one. -/
theorem wl_edge_validity (s e : Token) (L : List Token)
    (hne : word_ladder s e L ≠ []) :
    List.Chain' (fun a b : Token => a.length = b.length ∧ hamming a b = 1)
      (word_ladder s e L) := by
  refine List.Chain'.imp ?_ (word_ladder_spec hne).2.2.1
  intro a b hab
  exact codeEdge_hamming hab

/-- Witness for wl_edge_validity at concrete input. -/
theorem wl_edge_validity_witness :
    List.Chain' (fun a b : Token => a.length = b.length ∧ hamming a b = 1)
      (word_ladder ['c', 'a', 't'] ['b', 'a', 't'] [['b', 'a', 't']]) :=
  wl_edge_validity ['c', 'a', 't'] ['b', 'a', 't'] [['b', 'a', 't']]
    (by decide)

/-- C7.  Lexicon membership of results: in every non-empty result, every
element after the first belongs to the caller's original lexicon. -/
theorem wl_lexicon_membership (s e : Token) (L : List Token)
    (hne : word_ladder s e L ≠ []) :
    ∀ x ∈ (word_ladder s e L).tail, x ∈ L :=
  (word_ladder_spec hne).2.2.2.1

/-- Witness for wl_lexicon_membership at concrete input, instantiated at the
second element of the returned ladder. -/
theorem wl_lexicon_membership_witness :
    word_ladder ['c', 'a', 't'] ['b', 'a', 't'] [['b', 'a', 't']] ≠ [] ∧
      (['b', 'a', 't'] : Token) ∈ [(['b', 'a', 't'] : Token)] :=
  ⟨by decide,
    wl_lexicon_membership ['c', 'a', 't'] ['b', 'a', 't'] [['b', 'a', 't']]
      (by decide) ['b', 'a', 't'] (by decide)⟩

/-- C10.  Result endpoints and no repeats: every non-empty result starts
with the start token, ends with the end token, and contains no token more
than once. -/
theorem wl_endpoints_nodup (s e : Token) (L : List Token)
    (hne : word_ladder s e L ≠ []) :
    (word_ladder s e L).head? = some s ∧
      (word_ladder s e L).getLast? = some e ∧
      (word_ladder s e L).Nodup :=
  ⟨(word_ladder_spec hne).1, (word_ladder_spec hne).2.1,
    (word_ladder_spec hne).2.2.2.2⟩

/-- Witness for wl_endpoints_nodup at concrete input. -/
theorem wl_endpoints_nodup_witness :
    (word_ladder ['c', 'a', 't'] ['b', 'a', 't']
        [['b', 'a', 't']]).head? = some ['c', 'a', 't'] ∧
      (word_ladder ['c', 'a', 't'] ['b', 'a', 't']
        [['b', 'a', 't']]).getLast? = some ['b', 'a', 't'] ∧
      (word_ladder ['c', 'a', 't'] ['b', 'a', 't'] [['b', 'a', 't']]).Nodup :=
  wl_endpoints_nodup ['c', 'a', 't'] ['b', 'a', 't'] [['b', 'a', 't']]
    (by decide)

/-- C9.  VisitedSet invariant: at every state of the BFS loop reachable from
the initial state of a call, the visited list is duplicate-free, contained in
the call-scoped lexicon (caller lexicon plus start), of size at most |L| + 1,
every queued token is visited, and across any further step the visited list
only grows (the old list is a prefix of the new one) while every newly
visited token is simultaneously enqueued. -/
theorem wl_visited_invariant (s e : Token) (L : List Token)
    (st : List (Token × List Token) × List Token)
    (hreach : Relation.ReflTransGen (BfsStep e (set_add L s))
      ([(s, [s])], [s]) st) :
    st.2.Nodup ∧ (∀ x ∈ st.2, x ∈ set_add L s) ∧
      st.2.length ≤ L.length + 1 ∧ (∀ en ∈ st.1, en.1 ∈ st.2) ∧
      ∀ st2, BfsStep e (set_add L s) st st2 →
        st.2 <+: st2.2 ∧ ∀ x ∈ st2.2, x ∈ st.2 ∨ ∃ p, (x, p) ∈ st2.1 := by
  have hstep_local : ∀ st1 st2 : List (Token × List Token) × List Token,
      BfsStep e (set_add L s) st1 st2 →
      st1.2 <+: st2.2 ∧ ∀ x ∈ st2.2, x ∈ st1.2 ∨ ∃ p, (x, p) ∈ st2.1 := by
    intro st1 st2 hstep
    obtain ⟨cur, path, q0, hq, hpc⟩ := hstep
    rcases st2 with ⟨q2, v2⟩
    obtain ⟨-, ts, hv2, hq2, hts, -, -⟩ := processCands_inr hpc
    constructor
    · exact hv2 ▸ ⟨ts, rfl⟩
    · intro x hx
      rw [hv2] at hx
      rcases List.mem_append.1 hx with hx | hx
      · exact Or.inl hx
      · refine Or.inr ⟨path ++ [x], ?_⟩
        rw [hq2]
        exact List.mem_append_right _ (List.mem_map_of_mem _ hx)
  induction hreach with
  | refl =>
    refine ⟨List.nodup_singleton s, ?_, by simp, ?_, hstep_local _⟩
    · intro x hx
      rcases List.mem_singleton.1 hx with rfl
      exact mem_set_add.2 (Or.inr rfl)
    · intro en hen
      rcases List.mem_singleton.1 hen with rfl
      exact List.mem_singleton.2 rfl
  | @tail b c hsteps hstep ih =>
    obtain ⟨hnd, hsub, hlen, hqv, -⟩ := ih
    obtain ⟨cur, path, q0, hq, hpc⟩ := hstep
    rcases c with ⟨q2, v2⟩
    obtain ⟨-, ts, hv2, hq2, hts, hnd2, -⟩ := processCands_inr hpc
    have hnd2 := hnd2 hnd
    have hsub2 : ∀ x ∈ v2, x ∈ set_add L s := by
      intro x hx
      rw [hv2] at hx
      rcases List.mem_append.1 hx with hx | hx
      · exact hsub x hx
      · exact (hts x hx).2.1
    refine ⟨hnd2, hsub2, ?_, ?_, hstep_local _⟩
    · have := (hnd2.subperm hsub2).length_le
      have := set_add_length L s
      simp only at this ⊢
      omega
    · intro en hen
      simp only at hen ⊢
      rw [hq2] at hen
      rcases List.mem_append.1 hen with hen | hen
      · have : en.1 ∈ b.2 := hqv en (by rw [hq]; exact List.mem_cons_of_mem _ hen)
        rw [hv2]
        exact List.mem_append_left _ this
      · rcases List.mem_map.1 hen with ⟨w, hw, rfl⟩
        rw [hv2]
        exact List.mem_append_right _ hw

/-- Witness for wl_visited_invariant at the initial state of a concrete
call. -/
theorem wl_visited_invariant_witness :
    ([(['a'], [['a']])], [['a']]).2.Nodup ∧
      (∀ x ∈ ([(['a'], [['a']])], [['a']]).2,
        x ∈ set_add [['b']] ['a']) ∧
      ([(['a'], [['a']])], [['a']]).2.length ≤ ([(['b'] : Token)]).length + 1 ∧
      (∀ en ∈ ([(['a'], [['a']])], [['a']]).1,
        en.1 ∈ ([(['a'], [['a']])], [['a']]).2) ∧
      ∀ st2, BfsStep ['b'] (set_add [['b']] ['a'])
          ([(['a'], [['a']])], [['a']]) st2 →
        ([(['a'], [['a']])], [['a']]).2 <+: st2.2 ∧
          ∀ x ∈ st2.2, x ∈ ([(['a'], [['a']])], [['a']]).2 ∨
            ∃ p, (x, p) ∈ st2.1 :=
  wl_visited_invariant ['a'] ['b'] [['b']] ([(['a'], [['a']])], [['a']])
    Relation.ReflTransGen.refl

section WalkLemmas

lemma head?_getD {l : List Token} {a : Token} (h : l.head? = some a) :
    l.getD 0 [] = a := by
  cases l with
  | nil => cases h
  | cons x xs => cases h; rfl

lemma getLast?_getD {l : List Token} {a : Token} (h : l.getLast? = some a) :
    l.getD (l.length - 1) [] = a := by
  have hnn : l ≠ [] := by
    intro hh
    subst hh
    cases h
  have hlt : l.length - 1 < l.length := by
    cases l
    · exact absurd rfl hnn
    · simp
  rw [List.getD_eq_getElem l [] hlt, ← List.getLast_eq_getElem l hnn]
  rw [List.getLast?_eq_getLast_of_ne_nil hnn] at h
  exact Option.some.inj h

lemma chain'_getD {R : Token → Token → Prop} {l : List Token}
    (h : List.Chain' R l) {i : Nat} (hi : i + 1 < l.length) :
    R (l.getD i []) (l.getD (i + 1) []) := by
  have h2 := List.chain'_iff_get.1 h i (by omega)
  rw [List.getD_eq_getElem l [] (by omega : i < l.length),
    List.getD_eq_getElem l [] hi]
  simpa [List.get_eq_getElem] using h2

lemma getD_mem_tail {l : List Token} {i : Nat} (hi : i + 1 < l.length) :
    l.getD (i + 1) [] ∈ l.tail := by
  cases l with
  | nil => simp at hi
  | cons x xs =>
    simp only [List.getD_cons_succ, List.tail_cons]
    have hix : i < xs.length := by simpa using hi
    rw [List.getD_eq_getElem xs [] hix]
    exact List.getElem_mem hix

lemma walk_bound {s e : Token} {L d : List Token}
    {pi : List (Token × Nat)} {cur : Token} {path : List Token}
    {q0 : List (Token × List Token)} {v : List Token}
    (hd : ∀ x, x ∈ d ↔ x ∈ L ∨ x = s)
    (inv : LoopInv s e L d pi ((cur, path) :: q0) v)
    {P : List Token} (hP : IsCodeTransformationSeq s e L P) :
    path.length + 1 ≤ P.length := by
  obtain ⟨hPnn, hPhd, hPlast, hPtail, hPchain⟩ := hP
  have hm : 1 ≤ P.length := by
    cases P
    · exact absurd rfl hPnn
    · simp
  have hA0 : (∃ pr ∈ pi, pr.1 = P.getD 0 [] ∧ pr.2 ≤ 0 + 1) ∨
      (∃ en ∈ (cur, path) :: q0, en.1 = P.getD 0 [] ∧
        en.2.length ≤ 0 + 1) := by
    have h0 : P.getD 0 [] = s := head?_getD hPhd
    have hsv := inv.startMem
    rw [inv.fifo] at hsv
    rcases List.mem_append.1 hsv with hh | hh
    · rcases List.mem_map.1 hh with ⟨pr, hpr, hprs⟩
      exact Or.inl ⟨pr, hpr, by rw [h0, hprs],
        le_of_eq (inv.startLenP pr hpr hprs)⟩
    · rcases List.mem_map.1 hh with ⟨en, hen, hens⟩
      exact Or.inr ⟨en, hen, by rw [h0, hens],
        le_of_eq (inv.startLenQ en hen hens)⟩
  have hstep : ∀ i, i + 1 < P.length →
      ((∃ pr ∈ pi, pr.1 = P.getD i [] ∧ pr.2 ≤ i + 1) ∨
        (∃ en ∈ (cur, path) :: q0, en.1 = P.getD i [] ∧
          en.2.length ≤ i + 1)) →
      P.getD i [] ∈ pi.map Prod.fst →
      ((∃ pr ∈ pi, pr.1 = P.getD (i + 1) [] ∧ pr.2 ≤ (i + 1) + 1) ∨
        (∃ en ∈ (cur, path) :: q0, en.1 = P.getD (i + 1) [] ∧
          en.2.length ≤ (i + 1) + 1)) := by
    intro i hi hAi hproc
    have hpii : ∃ pr ∈ pi, pr.1 = P.getD i [] ∧ pr.2 ≤ i + 1 := by
      rcases hAi with h | ⟨en, hen, hens, -⟩
      · exact h
      · exfalso
        have h2 : P.getD i [] ∈ ((cur, path) :: q0).map Prod.fst :=
          hens ▸ List.mem_map_of_mem Prod.fst hen
        exact List.disjoint_of_nodup_append (inv.fifo ▸ inv.nodup) hproc h2
    rcases hpii with ⟨pr, hpr, hprc, hprb⟩
    obtain ⟨-, hcomp⟩ := inv.complete pr hpr
    have hedge : CodeEdge (P.getD i []) (P.getD (i + 1) []) :=
      chain'_getD hPchain hi
    have hcand : P.getD (i + 1) [] ∈ candidates pr.1 := by
      rw [hprc]
      exact hedge
    have hmemd : P.getD (i + 1) [] ∈ d :=
      (hd _).2 (Or.inl (hPtail _ (getD_mem_tail hi)))
    rcases hcomp _ hcand hmemd with ⟨pr2, hpr2, hpr2c, hpr2b⟩ |
      ⟨en, hen, henc, henb⟩
    · exact Or.inl ⟨pr2, hpr2, hpr2c, by omega⟩
    · exact Or.inr ⟨en, hen, henc, by omega⟩
  have hQlast : P.getD (P.length - 1) [] ∉ pi.map Prod.fst := by
    rw [getLast?_getD hPlast]
    intro hh
    apply inv.endNotMem
    rw [inv.fifo]
    exact List.mem_append_left _ hh
  have hex : ∃ i, P.getD i [] ∉ pi.map Prod.fst := ⟨P.length - 1, hQlast⟩
  have hk : P.getD (Nat.find hex) [] ∉ pi.map Prod.fst := Nat.find_spec hex
  have hkmin : ∀ i < Nat.find hex, P.getD i [] ∈ pi.map Prod.fst :=
    fun i hik => not_not.1 (Nat.find_min hex hik)
  have hkle : Nat.find hex ≤ P.length - 1 := Nat.find_min' hex hQlast
  have hAk : ∀ i ≤ Nat.find hex,
      (∃ pr ∈ pi, pr.1 = P.getD i [] ∧ pr.2 ≤ i + 1) ∨
      (∃ en ∈ (cur, path) :: q0, en.1 = P.getD i [] ∧
        en.2.length ≤ i + 1) := by
    intro i
    induction i with
    | zero => intro _; exact hA0
    | succ j ihj =>
      intro hjk
      exact hstep j (by omega) (ihj (by omega)) (hkmin j (by omega))
  have hqk : ∃ en ∈ (cur, path) :: q0, en.1 = P.getD (Nat.find hex) [] ∧
      en.2.length ≤ Nat.find hex + 1 := by
    rcases hAk (Nat.find hex) (le_refl _) with ⟨pr, hpr, hprc, -⟩ | h
    · exact absurd (hprc ▸ List.mem_map_of_mem Prod.fst hpr) hk
    · exact h
  rcases hqk with ⟨en, hen, henc, henb⟩
  have henv : en.1 ∈ v := by
    rw [inv.fifo]
    exact List.mem_append_right _ (List.mem_map_of_mem _ hen)
  have hkne : P.getD (Nat.find hex) [] ≠ e := by
    intro hh
    apply inv.endNotMem
    rw [← hh, ← henc]
    exact henv
  have hklt : Nat.find hex < P.length - 1 := by
    rcases lt_or_eq_of_le hkle with h | h
    · exact h
    · exfalso
      apply hkne
      rw [h]
      exact getLast?_getD hPlast
  have hple : path.length ≤ en.2.length := by
    rcases List.mem_cons.1 hen with h | h
    · subst h
      exact Nat.le_refl _
    · have hp : List.Pairwise (fun a b : Nat => a ≤ b)
          (((cur, path) :: q0).map fun en => en.2.length) :=
        (List.pairwise_append.1 inv.lensSorted).2.1
      simp only [List.map_cons] at hp
      exact List.rel_of_pairwise_cons hp (List.mem_map_of_mem _ h)
  omega

end WalkLemmas

section Minimality

lemma bfsLoop_minimal {s e : Token} {L d : List Token}
    (hd : ∀ x, x ∈ d ↔ x ∈ L ∨ x = s) :
    ∀ (n : Nat) (q : List (Token × List Token)) (v : List Token) (k : Nat)
      (pi : List (Token × Nat)), LoopInv s e L d pi q v →
      ∀ {res : List Token}, (bfsLoop e d n q v k).1 = some res → res ≠ [] →
      ∀ {P : List Token}, IsCodeTransformationSeq s e L P →
      res.length ≤ P.length := by
  intro n
  induction n with
  | zero => intro q v k pi inv res h hne P hP; simp [bfsLoop] at h
  | succ m ih =>
    intro q v k pi inv res h hne P hP
    match q with
    | [] =>
      simp only [bfsLoop, Option.some.injEq] at h
      exact absurd h.symm hne
    | (cur, path) :: q0 =>
      rw [bfsLoop_cons] at h
      rcases hpc : processCands e d path (candidates cur) q0 v with r | ⟨q2, v2⟩
      · rw [hpc] at h
        simp only [Option.some.injEq] at h
        obtain ⟨hr, -⟩ := processCands_inl hpc
        have hres : res = path ++ [e] := by rw [← h, hr]
        have hbound := walk_bound hd inv hP
        rw [hres]
        simpa using hbound
      · rw [hpc] at h
        simp only at h
        exact ih q2 v2 (k + 1) _ (loopInv_step hd inv hpc) h hne hP

end Minimality

/-- C1 counterexample: taken literally over arbitrary single-character edits
(any characters), the minimality claim fails, because the source only
generates lowercase-alphabet substitutions.  With a lexicon offering a
shortcut through tokens containing the capital letter Q, a valid
transformation sequence of four tokens exists, yet the call returns a
five-token sequence. -/
theorem wl_minimality_counterexample :
    IsTransformationSeq ['a', 'a', 'a'] ['c', 'b', 'a']
        [['Q', 'a', 'a'], ['Q', 'b', 'a'], ['c', 'b', 'a'], ['a', 'a', 'd'],
          ['a', 'b', 'd'], ['c', 'b', 'd']]
        [['a', 'a', 'a'], ['Q', 'a', 'a'], ['Q', 'b', 'a'], ['c', 'b', 'a']] ∧
      word_ladder ['a', 'a', 'a'] ['c', 'b', 'a']
        [['Q', 'a', 'a'], ['Q', 'b', 'a'], ['c', 'b', 'a'], ['a', 'a', 'd'],
          ['a', 'b', 'd'], ['c', 'b', 'd']] ≠ [] ∧
      ¬ (word_ladder ['a', 'a', 'a'] ['c', 'b', 'a']
          [['Q', 'a', 'a'], ['Q', 'b', 'a'], ['c', 'b', 'a'], ['a', 'a', 'd'],
            ['a', 'b', 'd'], ['c', 'b', 'd']]).length ≤
        ([['a', 'a', 'a'], ['Q', 'a', 'a'], ['Q', 'b', 'a'],
          ['c', 'b', 'a']] : List Token).length := by decide

/-- C1 amended.  Minimality over the edits the source can generate: every
non-empty result is no longer than any transformation sequence from start to
end through the lexicon whose steps are single-character lowercase-alphabet
substitutions. -/
theorem wl_minimality (s e : Token) (L : List Token) (P : List Token)
    (hP : IsCodeTransformationSeq s e L P)
    (hne : word_ladder s e L ≠ []) :
    (word_ladder s e L).length ≤ P.length := by
  have hm : 1 ≤ P.length := by
    rcases hP with ⟨hPnn, -⟩
    cases P
    · exact absurd rfl hPnn
    · simp
  by_cases h1 : s = e
  · subst h1
    rw [word_ladder_refl]
    simpa using hm
  · by_cases h2 : e ∈ L
    · rw [word_ladder_main h1 h2] at hne ⊢
      rcases hopt : (bfsLoop e (set_add L s) (fuelFor L) [(s, [s])] [s] 0).1
        with - | res
      · rw [hopt] at hne
        simp at hne
      · rw [hopt] at hne
        simp only [Option.getD_some] at hne ⊢
        exact bfsLoop_minimal (fun x => mem_set_add) (fuelFor L) _ _ 0 []
          (loopInv_init h1 (mem_set_add.2 (Or.inr rfl))) hopt hne hP
    · rw [word_ladder, word_ladder_run_fast h1 h2] at hne
      exact absurd rfl hne

/-- Witness for wl_minimality at concrete input. -/
theorem wl_minimality_witness :
    IsCodeTransformationSeq ['c', 'a', 't'] ['b', 'a', 't'] [['b', 'a', 't']]
        [['c', 'a', 't'], ['b', 'a', 't']] ∧
      word_ladder ['c', 'a', 't'] ['b', 'a', 't'] [['b', 'a', 't']] ≠ [] ∧
      (word_ladder ['c', 'a', 't'] ['b', 'a', 't']
          [['b', 'a', 't']]).length ≤
        ([['c', 'a', 't'], ['b', 'a', 't']] : List Token).length :=
  ⟨by decide, by decide,
    wl_minimality ['c', 'a', 't'] ['b', 'a', 't'] [['b', 'a', 't']]
      [['c', 'a', 't'], ['b', 'a', 't']] (by decide) (by decide)⟩

